import Mathlib

/-
Verification of the patrol-read-scanner daemon (patrol-read-scanner.py).

The development shallowly embeds the two state machines of the program:

* the per-device Scan Engine, `scan_device` (source lines 31-77): an
  unbuffered sequential read loop over a device, with an EIO
  recovery-by-skip policy, slow-read backoff, and inter-read pacing;

* the Supervisor, the `while True` loop of `main` (source lines 174-199):
  a polling loop over a dict `children` mapping device path to the most
  recently spawned worker process, which restarts finished workers and
  halts the daemon when any worker exits with code 1.

Machine integers do not overflow in the modelled fragment (Python ints are
unbounded), so offsets and sizes are `Nat` and worker exit codes are `Int`.
Wall-clock latency is abstracted into the per-offset read outcome: a read
either succeeds (with a flag saying whether its latency exceeded
`slow_read_threshold`), fails with errno EIO, or fails with some other
OSError.
-/

namespace PatrolScan

/-- Outcome of attempting one `dev.read(read_size)` at a given offset.
`ok slow` is a successful read whose measured latency exceeded
`slow_read_threshold` iff `slow = true`; `ioError` is an `OSError` with
`errno == errno.EIO` (source line 62); `fatalError` is any other `OSError`
(re-raised at source line 68). -/
inductive ReadOutcome where
  | ok (slow : Bool)
  | ioError
  | fatalError
deriving DecidableEq, Repr

/-- A device as the scan loop sees it: a byte size (what `dev.seek(0,
os.SEEK_END)` reports) and, for every offset, the outcome of attempting a
read there. -/
structure Device where
  size : Nat
  outcome : Nat → ReadOutcome

/-- Number of bytes a successful `dev.read(readSize)` returns at offset
`pos` of device `d`: the full `readSize` except near the end of the device,
and `0` at or past the end (which is how the loop detects end-of-device,
source line 74). -/
def bytesRead (d : Device) (readSize pos : Nat) : Nat :=
  min readSize (d.size - pos)

/-- Terminal status of a pass, as distinguishable by the Supervisor:
`completedPass` is the normal `return` at source line 76 (worker exit code
0), `failedFatal` is the re-raised OSError at source line 68 (uncaught
exception, worker exit code 1). -/
inductive ScanStatus where
  | completedPass
  | failedFatal
deriving DecidableEq, Repr

/-- State of the scan loop between iterations: still running with the file
position at `pos` (the next `start_pos = dev.tell()`), or terminated. -/
inductive ScanState where
  | running (pos : Nat)
  | done (s : ScanStatus)
deriving DecidableEq, Repr

/-- One iteration of the `while True` loop of `scan_device` (source lines
55-77), started with the file position at `pos`:
EIO -> `dev.seek(start_pos + read_size)` and continue; another OSError ->
re-raise (pass aborts); zero-byte read -> `return`; otherwise the read
advances the file position by the number of bytes actually read. -/
def scanStep (r : Nat) (d : Device) (pos : Nat) : ScanState :=
  match d.outcome pos with
  | .ioError => .running (pos + r)
  | .fatalError => .done .failedFatal
  | .ok _ =>
      if bytesRead d r pos = 0 then .done .completedPass
      else .running (pos + bytesRead d r pos)

/-- The two kinds of sleep the loop performs. -/
inductive SleepKind where
  | problemBackoff
  | interReadDelay
deriving DecidableEq, Repr

/-- The sequence of sleeps one iteration performs, in order, before the
loop re-enters (source lines 66, 73, 77): after an EIO the loop sleeps
`problem_backoff` (line 66) and then falls through to `sleep(delay)` (line
77); after a slow read it sleeps `problem_backoff` (line 73) and then, if
the read was not the terminal zero-byte read, `sleep(delay)` (line 77); a
normal non-terminal read is followed only by `sleep(delay)`; the re-raise
path sleeps nothing. -/
def stepSleeps (r : Nat) (d : Device) (pos : Nat) : List SleepKind :=
  match d.outcome pos with
  | .ioError => [.problemBackoff, .interReadDelay]
  | .fatalError => []
  | .ok slow =>
      (if slow then [.problemBackoff] else []) ++
      (if bytesRead d r pos = 0 then [] else [.interReadDelay])

/-- Run the scan loop for at most `fuel` iterations starting with the file
position at `pos`. `running q` after `fuel` iterations means the pass has
neither completed nor failed yet and the next read would be attempted at
offset `q`. -/
def runFrom (r : Nat) (d : Device) : Nat → Nat → ScanState
  | pos, 0 => .running pos
  | pos, fuel + 1 =>
      match scanStep r d pos with
      | .running q => runFrom r d q fuel
      | .done s => .done s

/-- The offsets at which the pass actually reads data (a successful read of
at least one byte), in the order they occur, during the first `fuel`
iterations starting at `pos`. -/
def passReadOffsets (r : Nat) (d : Device) : Nat → Nat → List Nat
  | _, 0 => []
  | pos, fuel + 1 =>
      (match d.outcome pos with
       | .ok _ => if bytesRead d r pos = 0 then [] else [pos]
       | _ => []) ++
      (match scanStep r d pos with
       | .running q => passReadOffsets r d q fuel
       | .done _ => [])

/-- Rounding of the exact ratio `a / b` (`b > 0`) to the nearest integer
multiple, ties to the even one: the IEEE-754 round-to-nearest-even rule at
integer granularity. -/
def roundHalfEven (a b : Nat) : Nat :=
  if 2 * (a % b) < b then a / b
  else if b < 2 * (a % b) then a / b + 1
  else if a / b % 2 = 0 then a / b else a / b + 1

/-- Fuel-driven binary64 ulp exponent of `S`: 0 while `S < 2^53` (the
53-bit mantissa holds such integers exactly), one more per further
doubling. -/
def ulpExpAux : Nat → Nat → Nat
  | _, 0 => 0
  | S, fuel + 1 => if S < 2 ^ 53 then 0 else ulpExpAux (S / 2) fuel + 1

/-- Binary64 ulp exponent of `S`. The constant fuel 1024 covers every
value CPython can convert to a float at all (int-to-float conversion
raises OverflowError from 2^1024 up, and such device sizes are outside
this model). -/
def ulpExp (S : Nat) : Nat := ulpExpAux S 1024

/-- The binary64 double nearest to the integer `S` (as an exact integer):
`S` rounded to the nearest multiple of its ulp, ties to even. This is
Python `float(S)`, and is the identity exactly when `S < 2^53`. -/
def floatOfNat (S : Nat) : Nat :=
  roundHalfEven S (2 ^ ulpExp S) * 2 ^ ulpExp S

/-- Python `int(size / 2)` from source line 54. CPython int/int true
division produces the correctly rounded double of the exact quotient,
which by scale invariance of round-to-nearest equals `float(size) / 2`
with the halving exact (it only decrements the exponent); `int(...)` then
truncates toward zero, which on these non-negative values (integers or
exact halves) is `Nat` floor division by 2 of the rounded size. -/
def pyHalf (size : Nat) : Nat := floatOfNat size / 2

/-- Start offset of a device's first-ever scan, from source lines 51-54:
`dev.seek((int(size / 2) // read_size) * read_size)`. -/
def firstScanStart (size readSize : Nat) : Nat :=
  (pyHalf size / readSize) * readSize

/-- A 100-byte device on which every read succeeds quickly. -/
def devC3 : Device := ⟨100, fun _ => .ok false⟩

/-- A 256-byte healthy device. -/
def devHealthy : Device := ⟨256, fun _ => .ok false⟩

/-- A 256-byte device with a single EIO medium error at offset 64. -/
def devEio : Device := ⟨256, fun p => if p = 64 then .ioError else .ok false⟩

/-- A 256-byte device whose read at offset 64 fails with a non-EIO OSError. -/
def devFatal : Device := ⟨256, fun p => if p = 64 then .fatalError else .ok false⟩

/-- A 256-byte device whose read at offset 0 is slow and all others fast. -/
def devSlow : Device := ⟨256, fun p => if p = 0 then .ok true else .ok false⟩

/-- Record of one worker process the Supervisor has ever spawned: a ghost
log of every `mp.Process(...)` plus `.start()` (source lines 191-198).
`wid` is a globally unique spawn index standing for the OS process handle.
-/
structure WorkerRec where
  devId : Nat
  firstScan : Bool
  spawnTick : Nat
  wid : Nat
deriving DecidableEq, Repr

/-- Supervisor state: the `children` dict as an association list (device id
to wid of the most recently spawned worker for it), the next fresh wid, and
the spawn log. -/
structure SupState where
  children : List (Nat × Nat)
  nextWid : Nat
  log : List WorkerRec
deriving DecidableEq, Repr

/-- `children = {}` before the `while True` loop (source line 174). -/
def initSup : SupState := ⟨[], 0, []⟩

/-- Dict lookup: the wid stored for `dev`, if any. -/
def childFor (dev : Nat) : List (Nat × Nat) → Option Nat
  | [] => none
  | (d, w) :: rest => if d = dev then some w else childFor dev rest

/-- Dict update storing wid `w` for `dev`. -/
def setChild (dev w : Nat) : List (Nat × Nat) → List (Nat × Nat)
  | [] => [(dev, w)]
  | (d, w0) :: rest =>
      if d = dev then (dev, w) :: rest else (d, w0) :: setChild dev w rest

/-- Spawning a worker for `dev` during tick `t` (source lines 191-192 and
196-198): store a fresh wid in the dict and append the record to the log.
-/
def spawn (st : SupState) (dev : Nat) (first : Bool) (t : Nat) : SupState :=
  ⟨setChild dev st.nextWid st.children, st.nextWid + 1,
   st.log ++ [⟨dev, first, t, st.nextWid⟩]⟩

/-- Environment of the Supervisor: the Device Directory (the resolved
target list per tick, `devpaths or discover_hdd_devices()`, source line
183) and the OS process table (`exitAt w t` is the exit code worker `w` has
terminated with, as observable at tick `t`, `none` while it is still
alive — `proc.exitcode` is `None` exactly while `proc.is_alive()`). -/
structure SupEnv where
  targets : Nat → List Nat
  exitAt : Nat → Nat → Option Int

/-- `proc.is_alive()` at tick `t`. -/
def SupEnv.aliveAt (e : SupEnv) (w t : Nat) : Bool := (e.exitAt w t).isNone

/-- The fatal check `proc.exitcode == 1` over `children.values()` (source
lines 177-178). -/
def anyFatal (e : SupEnv) (t : Nat) (st : SupState) : Bool :=
  st.children.any fun c => decide (e.exitAt c.2 t = some 1)

/-- The `(re)start device scans` loop (source lines 183-198) over the
resolved target list: a target with a live child is left alone; a target
whose child exited is given a replacement worker with
`start_from_middle` unset; a target never seen before is given a worker
with `start_from_middle=True`. -/
def startScans (e : SupEnv) (t : Nat) : List Nat → SupState → SupState
  | [], st => st
  | dev :: rest, st =>
      match childFor dev st.children with
      | some w =>
          if e.aliveAt w t then startScans e t rest st
          else startScans e t rest (spawn st dev false t)
      | none => startScans e t rest (spawn st dev true t)

/-- Result of one iteration of the Supervisor's `while True` loop (source
lines 175-199): either the daemon halts — `p.kill()` on every still-alive
child, then `return` — or the loop continues with an updated state. -/
inductive TickResult where
  | halted (killed : List Nat)
  | next (st : SupState)
deriving DecidableEq, Repr

def supTick (e : SupEnv) (t : Nat) (st : SupState) : TickResult :=
  if anyFatal e t st then
    .halted ((st.children.filter fun c => e.aliveAt c.2 t).map Prod.snd)
  else
    .next (startScans e t (e.targets t) st)

/-- Supervisor state before tick `t` (ticks `0..t-1` have run); `none` once
the daemon has halted. -/
def runState (e : SupEnv) : Nat → Option SupState
  | 0 => some initSup
  | t + 1 =>
      match runState e t with
      | some st =>
          match supTick e t st with
          | .next st2 => some st2
          | .halted _ => none
      | none => none

/-- `sys.exit(main())` (source line 203): `sys.exit(None)` exits the
process with status 0, and `sys.exit(c)` with status `c`. -/
def sysExitStatus : Option Int → Int
  | none => 0
  | some c => c

/-- The value `main` returns on the fatal-shutdown path: the bare `return`
at source line 181, i.e. Python `None`. -/
def mainFatalReturn : Option Int := none

/-- The daemon's process exit status when a worker hits a fatal error. -/
def daemonFatalExitStatus : Int := sysExitStatus mainFatalReturn

/-- Start offset a worker's scan uses, given its `firstScan` flag: the
aligned midpoint when spawned with `start_from_middle=True` (source lines
196-197), otherwise offset 0 (a freshly opened device handle is at
position 0 and `scan_device` performs no initial seek). -/
def workerStartOffset (size r : Nat) (w : WorkerRec) : Nat :=
  if w.firstScan then firstScanStart size r else 0

/-- The most recent spawn-log record for device `dev`. -/
def latestRec (dev : Nat) : List WorkerRec → Option WorkerRec
  | [] => none
  | w :: rest =>
      match latestRec dev rest with
      | some u => some u
      | none => if w.devId = dev then some w else none

/-- Environment with two devices in which worker 0 exits with code 1 (a
fatal error) at tick 1 while worker 1 keeps running. -/
def envC1 : SupEnv :=
  ⟨fun _ => [0, 1], fun w t => if w = 0 ∧ 1 ≤ t then some 1 else none⟩

/-- The Supervisor state reached after tick 0 in `envC1`. -/
def stC1 : SupState := ⟨[(0, 0), (1, 1)], 2, [⟨0, true, 0, 0⟩, ⟨1, true, 0, 1⟩]⟩

/-- Environment with one device whose worker 0 finishes a pass (exit code
0) at tick 1. -/
def envC8 : SupEnv :=
  ⟨fun _ => [0], fun w t => if w = 0 ∧ 1 ≤ t then some 0 else none⟩

/-- First worker spawned for device 0 in `envC8` (tick 0, midpoint). -/
def recC8a : WorkerRec := ⟨0, true, 0, 0⟩

/-- Replacement worker spawned for device 0 in `envC8` (tick 1, offset 0).
-/
def recC8b : WorkerRec := ⟨0, false, 1, 1⟩

/-- The Supervisor state reached after ticks 0 and 1 in `envC8`. -/
def stC8 : SupState := ⟨[(0, 1)], 2, [recC8a, recC8b]⟩

/-- Environment with one device whose worker 0 is killed by a signal at
tick 1 (`proc.exitcode == -9`, not 1). -/
def envC10 : SupEnv :=
  ⟨fun _ => [0], fun w t => if w = 0 ∧ 1 ≤ t then some (-9) else none⟩

/-- The Supervisor state reached after tick 0 in `envC10`. -/
def stC10 : SupState := ⟨[(0, 0)], 1, [⟨0, true, 0, 0⟩]⟩

/-- Helper: the loop state after `n + 1` iterations is one `scanStep` past
the state after `n` iterations (terminal states are absorbing). -/
theorem runFrom_succ (r : Nat) (d : Device) (n pos : Nat) :
    runFrom r d pos (n + 1) =
      match runFrom r d pos n with
      | .running p => scanStep r d p
      | .done s => .done s := by
  induction n generalizing pos with
  | zero =>
      have hrhs : (match runFrom r d pos 0 with
          | ScanState.running p => scanStep r d p
          | ScanState.done s => ScanState.done s) = scanStep r d pos := rfl
      rw [hrhs]
      cases h : scanStep r d pos with
      | running q =>
          show (match scanStep r d pos with
                | ScanState.running q2 => runFrom r d q2 0
                | ScanState.done s => ScanState.done s) = _
          rw [h]; rfl
      | done s =>
          show (match scanStep r d pos with
                | ScanState.running q2 => runFrom r d q2 0
                | ScanState.done s => ScanState.done s) = _
          rw [h]
  | succ n ih =>
      cases h : scanStep r d pos with
      | running q =>
          have hL : runFrom r d pos (n + 1 + 1) = runFrom r d q (n + 1) := by
            show (match scanStep r d pos with
                  | ScanState.running q2 => runFrom r d q2 (n + 1)
                  | ScanState.done s => ScanState.done s) = _
            rw [h]
          have hR : runFrom r d pos (n + 1) = runFrom r d q n := by
            show (match scanStep r d pos with
                  | ScanState.running q2 => runFrom r d q2 n
                  | ScanState.done s => ScanState.done s) = _
            rw [h]
          rw [hL, hR, ih q]
      | done s =>
          have hL : runFrom r d pos (n + 1 + 1) = ScanState.done s := by
            show (match scanStep r d pos with
                  | ScanState.running q2 => runFrom r d q2 (n + 1)
                  | ScanState.done s => ScanState.done s) = _
            rw [h]
          have hR : runFrom r d pos (n + 1) = ScanState.done s := by
            show (match scanStep r d pos with
                  | ScanState.running q2 => runFrom r d q2 n
                  | ScanState.done s => ScanState.done s) = _
            rw [h]
          rw [hL, hR]

/-- Helper: a terminated pass stays terminated with the same status. -/
theorem runFrom_done_mono (r : Nat) (d : Device) (pos : Nat) (s : ScanStatus)
    (n m : Nat) (hnm : n ≤ m) (h : runFrom r d pos n = .done s) :
    runFrom r d pos m = .done s := by
  induction m, hnm using Nat.le_induction with
  | base => exact h
  | succ m hm ih => rw [runFrom_succ, ih]

/-- Helper: unfolding one iteration of the loop. -/
theorem runFrom_step (r : Nat) (d : Device) (pos fuel : Nat) :
    runFrom r d pos (fuel + 1) =
      match scanStep r d pos with
      | .running q => runFrom r d q fuel
      | .done s => .done s := rfl

/-- Helper: after an EIO the loop seeks to `start_pos + read_size`. -/
theorem scanStep_ioError (r : Nat) (d : Device) (pos : Nat)
    (h : d.outcome pos = .ioError) : scanStep r d pos = .running (pos + r) := by
  unfold scanStep; rw [h]

/-- Helper: a non-EIO OSError aborts the pass. -/
theorem scanStep_fatal (r : Nat) (d : Device) (pos : Nat)
    (h : d.outcome pos = .fatalError) : scanStep r d pos = .done .failedFatal := by
  unfold scanStep; rw [h]

/-- Helper: a zero-byte read completes the pass. -/
theorem scanStep_ok_end (r : Nat) (d : Device) (pos : Nat) (s : Bool)
    (h : d.outcome pos = .ok s) (hb : bytesRead d r pos = 0) :
    scanStep r d pos = .done .completedPass := by
  unfold scanStep; rw [h]; simp [hb]

/-- Helper: a successful read of data advances the file position by the
number of bytes read. -/
theorem scanStep_ok_data (r : Nat) (d : Device) (pos : Nat) (s : Bool)
    (h : d.outcome pos = .ok s) (hb : bytesRead d r pos ≠ 0) :
    scanStep r d pos = .running (pos + bytesRead d r pos) := by
  unfold scanStep; rw [h]; simp [hb]

/-- Helper: unfolding one iteration of the data-read offset trace. -/
theorem passReadOffsets_step (r : Nat) (d : Device) (pos fuel : Nat) :
    passReadOffsets r d pos (fuel + 1) =
      (match d.outcome pos with
       | .ok _ => if bytesRead d r pos = 0 then [] else [pos]
       | _ => []) ++
      (match scanStep r d pos with
       | .running q => passReadOffsets r d q fuel
       | .done _ => []) := rfl

/-- Helper: below 2^53 the binary64 ulp of an integer is 1. -/
theorem ulpExp_small (S : Nat) (h : S < 2 ^ 53) : ulpExp S = 0 := by
  show ulpExpAux S (1023 + 1) = 0
  unfold ulpExpAux
  rw [if_pos h]

/-- Helper: rounding to the grid of all integers changes nothing. -/
theorem roundHalfEven_one (S : Nat) : roundHalfEven S 1 = S := by
  unfold roundHalfEven
  simp [Nat.mod_one, Nat.div_one]

/-- Helper: for sizes below 2^53 the float detour computes exact floor
halving. -/
theorem pyHalf_small (S : Nat) (h : S < 2 ^ 53) : pyHalf S = S / 2 := by
  unfold pyHalf floatOfNat
  rw [ulpExp_small S h]
  show roundHalfEven S (2 ^ 0) * 2 ^ 0 / 2 = S / 2
  rw [pow_zero, roundHalfEven_one, Nat.mul_one]

/-- C2 counterexample: the claim quantifies over every device size `S` and
fails twice. At `S = 0` (an empty device, `read_size = 1`) the start
offset is 0, which is not strictly less than `S`. And at
`S = 2^53 + 3 = 9007199254740995` (`read_size = 1`), a size a binary64
float no longer holds exactly, Python's `int(size / 2)` rounds up
(`float(S)` is `2^53 + 4`), so the program's start offset is
`floor(S/2) + 1 = 4503599627370498`, not the claimed
`floor(floor(S/2)/read_size) * read_size = 4503599627370497`. -/
theorem patrol_C2_counterexample :
    (firstScanStart 0 1 = 0 ∧ ¬ firstScanStart 0 1 < 0) ∧
    (firstScanStart 9007199254740995 1 = 4503599627370498 ∧
      9007199254740995 / 2 / 1 * 1 = 4503599627370497) := by decide

/-- C2 (amended: requires a non-empty device, `S ≥ 1`, and a size small
enough that CPython's float halving of it is exact, `S < 2^53`): for every
`read_size > 0` and device size `1 ≤ S < 2^53`, the first-scan start
offset equals `floor(floor(S/2)/read_size) * read_size`, is a multiple of
`read_size`, and is strictly less than `S`. -/
theorem patrol_C2 (r S : Nat) (hr : 0 < r) (hS : 1 ≤ S)
    (hS53 : S < 2 ^ 53) :
    firstScanStart S r = S / 2 / r * r ∧ r ∣ firstScanStart S r ∧
      firstScanStart S r < S := by
  have hfs : firstScanStart S r = S / 2 / r * r := by
    unfold firstScanStart
    rw [pyHalf_small S hS53]
  refine ⟨hfs, ?_, ?_⟩
  · rw [hfs]
    exact dvd_mul_left r (S / 2 / r)
  · rw [hfs]
    calc S / 2 / r * r ≤ S / 2 := Nat.div_mul_le_self _ _
      _ < S := Nat.div_lt_self hS (by omega)

/-- C2 witness: a 1 MiB device scanned with 128 KiB reads. -/
theorem patrol_C2_witness :
    131072 ∣ firstScanStart 1048576 131072 ∧
      firstScanStart 1048576 131072 < 1048576 :=
  ⟨(patrol_C2 131072 1048576 (by decide) (by decide) (by decide)).2.1,
   (patrol_C2 131072 1048576 (by decide) (by decide) (by decide)).2.2⟩

/-- Helper: if the invariant `read_size ∣ device size` holds, every step
from an aligned position lands on an aligned position. -/
theorem scanStep_running_dvd (r : Nat) (d : Device) (hsize : r ∣ d.size)
    (pos : Nat) (hpos : r ∣ pos) (q : Nat)
    (h : scanStep r d pos = .running q) : r ∣ q := by
  unfold scanStep at h
  cases hout : d.outcome pos <;> rw [hout] at h
  case ok s =>
    by_cases hb : bytesRead d r pos = 0
    · simp [hb] at h
    · rw [if_neg hb] at h
      cases h
      unfold bytesRead at hb ⊢
      by_cases hle : r ≤ d.size - pos
      · rw [Nat.min_eq_left hle]
        exact hpos.add dvd_rfl
      · rw [Nat.min_eq_right (le_of_not_le hle)] at hb ⊢
        have hsp : pos + (d.size - pos) = d.size := by omega
        rw [hsp]
        exact hsize
  case ioError =>
    cases h
    exact hpos.add dvd_rfl
  case fatalError => cases h

/-- C3 counterexample: on a 100-byte device with `read_size = 64` and no
errors, the third read is attempted at offset 100 (the 36-byte tail read at
offset 64 left the cursor unaligned), so the cursor is not a multiple of
`read_size` at every read attempt for every device size. -/
theorem patrol_C3_counterexample :
    runFrom 64 devC3 0 2 = .running 100 ∧ ¬ 64 ∣ 100 :=
  ⟨rfl, by decide⟩

/-- C3 (amended: alignment additionally requires the device size to be a
multiple of `read_size`; the final short tail read of a device whose size
is not a multiple of `read_size` leaves the cursor at the device size):
within one pass the cursor is monotonically non-decreasing for every device
size and every sequence of read outcomes, and when `read_size` divides both
the start offset and the device size, every read attempt is at an exact
multiple of `read_size`. -/
theorem patrol_C3 (r : Nat) (d : Device) (start : Nat) :
    (∀ n p q, runFrom r d start n = .running p →
      runFrom r d start (n + 1) = .running q → p ≤ q) ∧
    (0 < r → r ∣ start → r ∣ d.size →
      ∀ n p, runFrom r d start n = .running p → r ∣ p) := by
  constructor
  · intro n p q hp hq
    have h2 : scanStep r d p = .running q := by
      rw [runFrom_succ, hp] at hq; exact hq
    unfold scanStep at h2
    cases hout : d.outcome p <;> rw [hout] at h2
    case ok s =>
      by_cases hb : bytesRead d r p = 0
      · simp [hb] at h2
      · rw [if_neg hb] at h2
        cases h2
        exact Nat.le_add_right _ _
    case ioError =>
      cases h2
      exact Nat.le_add_right _ _
    case fatalError => cases h2
  · intro hr hstart hsize
    suffices h : ∀ n pos, r ∣ pos → ∀ p, runFrom r d pos n = .running p → r ∣ p by
      intro n p hp
      exact h n start hstart p hp
    intro n
    induction n with
    | zero =>
        intro pos hpos p hp
        cases hp
        exact hpos
    | succ n ih =>
        intro pos hpos p hp
        rw [runFrom_step] at hp
        cases hstep : scanStep r d pos <;> rw [hstep] at hp
        case running q =>
            exact ih q (scanStep_running_dvd r d hsize pos hpos q hstep) p hp
        case done s => cases hp

/-- C3 witness: on a healthy 256-byte device with 64-byte reads, attempt 0
is at offset 0 then attempt 1 at offset 64 (monotone), and the offset of
attempt 2 (namely 128) is a multiple of the read size. -/
theorem patrol_C3_witness : (0 : Nat) ≤ 64 ∧ 64 ∣ 128 :=
  ⟨(patrol_C3 64 devHealthy 0).1 0 0 64 rfl rfl,
   (patrol_C3 64 devHealthy 0).2 (by decide) (dvd_zero 64) (by decide) 2 128 rfl⟩

/-- C4: if the read attempted at offset `pos` fails with errno EIO, the
next read attempt is at exactly `pos + read_size` (a strictly larger
offset, so `pos` is never re-attempted), and before that next attempt the
iteration sleeps `problem_backoff` first and then the inter-read delay. -/
theorem patrol_C4 (r : Nat) (hr : 0 < r) (d : Device) (start n pos : Nat)
    (hrun : runFrom r d start n = .running pos)
    (h : d.outcome pos = .ioError) :
    runFrom r d start (n + 1) = .running (pos + r) ∧ pos < pos + r ∧
      stepSleeps r d pos = [.problemBackoff, .interReadDelay] := by
  refine ⟨?_, Nat.lt_add_of_pos_right hr, ?_⟩
  · rw [runFrom_succ, hrun]
    exact scanStep_ioError r d pos h
  · unfold stepSleeps; rw [h]

/-- C4 witness: scenario with a medium error at offset 64 of a 256-byte
device with `read_size = 64`: the engine next reads at 128. -/
theorem patrol_C4_witness :
    runFrom 64 devEio 0 2 = .running 128 ∧ (64 : Nat) < 128 ∧
      stepSleeps 64 devEio 64 = [.problemBackoff, .interReadDelay] := by
  have h := patrol_C4 64 (by decide) devEio 0 1 64 rfl rfl
  exact ⟨h.1, h.2.1, h.2.2⟩

/-- Helper: a pass that completed did so because some attempted read
succeeded with zero bytes. -/
theorem runFrom_completed_exists (r : Nat) (d : Device) :
    ∀ n pos, runFrom r d pos n = .done .completedPass →
      ∃ m q, runFrom r d pos m = .running q ∧
        (∃ s, d.outcome q = .ok s) ∧ bytesRead d r q = 0 := by
  intro n
  induction n with
  | zero =>
      intro pos h
      cases h
  | succ n ih =>
      intro pos h
      rw [runFrom_step] at h
      cases hstep : scanStep r d pos <;> rw [hstep] at h
      case running q =>
          obtain ⟨m, q2, hq2, hok, hb⟩ := ih q h
          refine ⟨m + 1, q2, ?_, hok, hb⟩
          rw [runFrom_step, hstep]
          exact hq2
      case done s =>
          cases h
          unfold scanStep at hstep
          cases hout : d.outcome pos <;> rw [hout] at hstep
          case ok s2 =>
            by_cases hb : bytesRead d r pos = 0
            · exact ⟨0, pos, rfl, ⟨s2, hout⟩, hb⟩
            · rw [if_neg hb] at hstep
              cases hstep
          case ioError => cases hstep
          case fatalError =>
            cases hstep

/-- C5: a pass terminates with `CompletedPass` if and only if some read at
the current cursor returns zero bytes; and a read failure with an errno
other than EIO terminates the pass with `FailedFatal` on the very next
step, after which the pass never has status `CompletedPass`. -/
theorem patrol_C5 (r : Nat) (d : Device) (start : Nat) :
    ((∃ n, runFrom r d start n = .done .completedPass) ↔
      (∃ n p, runFrom r d start n = .running p ∧
        (∃ s, d.outcome p = .ok s) ∧ bytesRead d r p = 0)) ∧
    (∀ n p, runFrom r d start n = .running p → d.outcome p = .fatalError →
      runFrom r d start (n + 1) = .done .failedFatal ∧
      ∀ m, runFrom r d start m ≠ .done .completedPass) := by
  constructor
  · constructor
    · rintro ⟨n, h⟩
      exact runFrom_completed_exists r d n start h
    · rintro ⟨n, p, hrun, ⟨s, hout⟩, hb⟩
      refine ⟨n + 1, ?_⟩
      rw [runFrom_succ, hrun]
      exact scanStep_ok_end r d p s hout hb
  · intro n p hrun hout
    have hfail : runFrom r d start (n + 1) = .done .failedFatal := by
      rw [runFrom_succ, hrun]
      exact scanStep_fatal r d p hout
    refine ⟨hfail, ?_⟩
    intro m hm
    rcases le_or_lt m n with hle | hlt
    · have := runFrom_done_mono r d start .completedPass m n hle hm
      rw [this] at hrun
      cases hrun
    · have := runFrom_done_mono r d start .failedFatal (n + 1) m hlt hfail
      rw [this] at hm
      cases hm

/-- C5 witness: a non-EIO OSError at offset 64 of a 256-byte device aborts
the pass as `FailedFatal` on the next step, and the pass is never
`CompletedPass` (checked at iteration 5). -/
theorem patrol_C5_witness :
    runFrom 64 devFatal 0 2 = .done .failedFatal ∧
      runFrom 64 devFatal 0 5 ≠ .done .completedPass := by
  have h := (patrol_C5 64 devFatal 0).2 1 64 rfl rfl
  exact ⟨h.1, h.2 5⟩

/-- C6: a non-terminal read (one with a next read attempt) whose latency
exceeds `slow_read_threshold` is followed by the `problem_backoff` sleep
first and then the `inter_read_delay` sleep; a non-terminal read that is
neither slow nor failed is followed only by the `inter_read_delay` sleep. -/
theorem patrol_C6 (r : Nat) (d : Device) (pos : Nat)
    (hnz : bytesRead d r pos ≠ 0) :
    (d.outcome pos = .ok true →
      stepSleeps r d pos = [.problemBackoff, .interReadDelay]) ∧
    (d.outcome pos = .ok false →
      stepSleeps r d pos = [.interReadDelay]) := by
  constructor <;> intro h <;> unfold stepSleeps <;> rw [h] <;> simp [hnz]

/-- C6 witness: on a 256-byte device whose read at offset 0 is slow, the
slow read at 0 is followed by backoff then delay, and the normal read at 64
only by the delay. -/
theorem patrol_C6_witness :
    stepSleeps 64 devSlow 0 = [.problemBackoff, .interReadDelay] ∧
      stepSleeps 64 devSlow 64 = [.interReadDelay] :=
  ⟨(patrol_C6 64 devSlow 0 (by decide)).1 rfl,
   (patrol_C6 64 devSlow 64 (by decide)).2 rfl⟩

/-- Helper: between two distinct multiples of `r` there is a gap of at
least `r`. -/
theorem dvd_add_le_of_lt (r pos o : Nat) (hpos : r ∣ pos) (ho : r ∣ o)
    (h : pos < o) : pos + r ≤ o := by
  obtain ⟨a, rfl⟩ := hpos
  obtain ⟨b, rfl⟩ := ho
  have hab : a + 1 ≤ b := by
    by_contra hc
    push_neg at hc
    have : r * b ≤ r * a := Nat.mul_le_mul_left r (by omega)
    omega
  calc r * a + r = r * (a + 1) := by ring
    _ ≤ r * b := Nat.mul_le_mul_left r hab

/-- Helper: on an error-free device, a pass started at an aligned offset
(or past the end) completes within its fuel bound and its data reads cover
each aligned offset between the start offset and the device size exactly
once. -/
theorem passFrom_spec (r : Nat) (d : Device) (hr : 0 < r)
    (hok : ∀ p, ∃ s, d.outcome p = .ok s) :
    ∀ fuel pos, 1 ≤ fuel → d.size + r ≤ pos + fuel * r →
      (r ∣ pos ∨ d.size ≤ pos) →
      runFrom r d pos fuel = .done .completedPass ∧
      (∀ o, o ∈ passReadOffsets r d pos fuel ↔
        (r ∣ o ∧ pos ≤ o ∧ o < d.size)) ∧
      (passReadOffsets r d pos fuel).Nodup := by
  intro fuel
  induction fuel with
  | zero =>
      intro pos h1
      omega
  | succ f ih =>
      intro pos h1 hfuel hinv
      rw [Nat.succ_mul] at hfuel
      obtain ⟨s, hout⟩ := hok pos
      by_cases hend : d.size ≤ pos
      · have hb : bytesRead d r pos = 0 := by unfold bytesRead; omega
        have hlist : passReadOffsets r d pos (f + 1) = [] := by
          rw [passReadOffsets_step, hout, scanStep_ok_end r d pos s hout hb]
          simp [hb]
        refine ⟨?_, ?_, ?_⟩
        · rw [runFrom_step, scanStep_ok_end r d pos s hout hb]
        · intro o
          rw [hlist]
          simp only [List.not_mem_nil, false_iff]
          rintro ⟨-, h2, h3⟩
          omega
        · rw [hlist]
          exact List.nodup_nil
      · push_neg at hend
        have hb : bytesRead d r pos ≠ 0 := by unfold bytesRead; omega
        have hpos : r ∣ pos := by
          rcases hinv with h | h
          · exact h
          · omega
        have hstep := scanStep_ok_data r d pos s hout hb
        have hlist : passReadOffsets r d pos (f + 1) =
            pos :: passReadOffsets r d (pos + bytesRead d r pos) f := by
          rw [passReadOffsets_step, hout, hstep]
          simp [hb]
        have hrunstep : runFrom r d pos (f + 1) =
            runFrom r d (pos + bytesRead d r pos) f := by
          rw [runFrom_step, hstep]
        have hf1 : 1 ≤ f := by
          rcases Nat.eq_zero_or_pos f with rfl | h
          · rw [Nat.zero_mul] at hfuel
            omega
          · exact h
        by_cases hAB : r ≤ d.size - pos
        · -- full-size read: advance by exactly r
          have hbr : bytesRead d r pos = r := by
            unfold bytesRead
            exact min_eq_left hAB
          obtain ⟨ihrun, ihmem, ihnd⟩ :=
            ih (pos + r) hf1 (by omega) (Or.inl (hpos.add dvd_rfl))
          rw [hbr] at hlist hrunstep
          refine ⟨by rw [hrunstep]; exact ihrun, ?_, ?_⟩
          · intro o
            rw [hlist, List.mem_cons]
            constructor
            · rintro (rfl | hmem)
              · exact ⟨hpos, le_refl _, hend⟩
              · obtain ⟨h1, h2, h3⟩ := (ihmem o).mp hmem
                exact ⟨h1, by omega, h3⟩
            · rintro ⟨hdvd, hle, hlt⟩
              by_cases ho : o = pos
              · exact Or.inl ho
              · have hgt : pos < o := lt_of_le_of_ne hle (Ne.symm ho)
                exact Or.inr ((ihmem o).mpr
                  ⟨hdvd, dvd_add_le_of_lt r pos o hpos hdvd hgt, hlt⟩)
          · rw [hlist]
            refine List.Nodup.cons ?_ ihnd
            intro hmem
            obtain ⟨-, h2, -⟩ := (ihmem pos).mp hmem
            omega
        · -- short tail read: advance to exactly the device size
          push_neg at hAB
          have hbr : bytesRead d r pos = d.size - pos := by
            unfold bytesRead
            exact min_eq_right (by omega)
          have hq : pos + bytesRead d r pos = d.size := by rw [hbr]; omega
          have hrle : r ≤ f * r := Nat.le_mul_of_pos_left r hf1
          obtain ⟨ihrun, ihmem, ihnd⟩ :=
            ih d.size hf1 (by omega) (Or.inr (le_refl _))
          rw [hq] at hlist hrunstep
          refine ⟨by rw [hrunstep]; exact ihrun, ?_, ?_⟩
          · intro o
            rw [hlist, List.mem_cons]
            constructor
            · rintro (rfl | hmem)
              · exact ⟨hpos, le_refl _, hend⟩
              · obtain ⟨-, h2, h3⟩ := (ihmem o).mp hmem
                omega
            · rintro ⟨hdvd, hle, hlt⟩
              by_cases ho : o = pos
              · exact Or.inl ho
              · exfalso
                have hgt : pos < o := lt_of_le_of_ne hle (Ne.symm ho)
                have := dvd_add_le_of_lt r pos o hpos hdvd hgt
                omega
          · rw [hlist]
            refine List.Nodup.cons ?_ ihnd
            intro hmem
            obtain ⟨-, h2, h3⟩ := (ihmem pos).mp hmem
            omega

/-- C7 counterexample: the claim quantifies over every pass, but a
first-ever pass starts at the aligned midpoint: on a healthy 256-byte
device with `read_size = 64`, the midpoint-start pass completes after
reading data only at offsets 128 and 192, so it does not cover aligned
offset 0 (which satisfies `64 ∣ 0 ∧ 0 < 256`). -/
theorem patrol_C7_counterexample :
    firstScanStart 256 64 = 128 ∧
    runFrom 64 devHealthy 128 3 = .done .completedPass ∧
    passReadOffsets 64 devHealthy 128 3 = [128, 192] ∧
    (64 ∣ 0 ∧ 0 < 256) ∧
    0 ∉ passReadOffsets 64 devHealthy 128 3 := by decide

/-- C7 (amended: restricted to passes started at offset 0, i.e. every pass
after a device's first; a first-ever pass covers only the aligned offsets
from the midpoint up): an error-free pass started at offset 0 completes and
reads each aligned block exactly once, covering exactly the offsets
`0, read_size, 2*read_size, ... < S`; in particular any two back-to-back
error-free offset-0 passes each cover that full set. -/
theorem patrol_C7 (r : Nat) (d : Device) (hr : 0 < r)
    (hok : ∀ p, ∃ s, d.outcome p = .ok s) :
    runFrom r d 0 (d.size / r + 2) = .done .completedPass ∧
    (∀ o, o ∈ passReadOffsets r d 0 (d.size / r + 2) ↔
      (r ∣ o ∧ o < d.size)) ∧
    (passReadOffsets r d 0 (d.size / r + 2)).Nodup := by
  have hdm : d.size / r * r + d.size % r = d.size := by
    rw [Nat.mul_comm (d.size / r) r]
    exact Nat.div_add_mod d.size r
  have hmlt : d.size % r < r := Nat.mod_lt d.size hr
  have hcond : d.size + r ≤ 0 + (d.size / r + 2) * r := by
    have h2 : (d.size / r + 2) * r = d.size / r * r + 2 * r :=
      Nat.add_mul (d.size / r) 2 r
    rw [h2]
    omega
  obtain ⟨h1, h2, h3⟩ :=
    passFrom_spec r d hr hok (d.size / r + 2) 0
      (Nat.succ_le_succ (Nat.zero_le _)) hcond (Or.inl (dvd_zero r))
  refine ⟨h1, ?_, h3⟩
  intro o
  rw [h2 o]
  constructor
  · rintro ⟨ha, -, hc⟩
    exact ⟨ha, hc⟩
  · rintro ⟨ha, hc⟩
    exact ⟨ha, Nat.zero_le o, hc⟩

/-- C7 witness: on a healthy 256-byte device with 64-byte reads, the
offset-0 pass completes and covers offset 0. -/
theorem patrol_C7_witness :
    runFrom 64 devHealthy 0 6 = .done .completedPass ∧
      0 ∈ passReadOffsets 64 devHealthy 0 6 := by
  have h := patrol_C7 64 devHealthy (by decide) (fun p => ⟨false, rfl⟩)
  exact ⟨h.1, (h.2.1 0).mpr (by decide)⟩

/-- Helper: looking up the key just stored. -/
theorem childFor_setChild_same (dev w : Nat) :
    ∀ ch, childFor dev (setChild dev w ch) = some w := by
  intro ch
  induction ch with
  | nil => simp [setChild, childFor]
  | cons c rest ih =>
      obtain ⟨d, w0⟩ := c
      by_cases hd : d = dev
      · simp [setChild, hd, childFor]
      · simp [setChild, hd, childFor, ih]

/-- Helper: storing one key leaves lookups of other keys unchanged. -/
theorem childFor_setChild_other (dev w d2 : Nat) (hne : d2 ≠ dev) :
    ∀ ch, childFor d2 (setChild dev w ch) = childFor d2 ch := by
  intro ch
  induction ch with
  | nil =>
      simp only [setChild, childFor]
      rw [if_neg fun h => hne h.symm]
  | cons c rest ih =>
      obtain ⟨d, w0⟩ := c
      by_cases hd : d = dev
      · subst hd
        simp only [setChild, if_pos rfl, childFor]
        rw [if_neg fun h => hne h.symm, if_neg fun h => hne h.symm]
      · simp only [setChild, if_neg hd, childFor]
        by_cases h2 : d = d2
        · rw [if_pos h2, if_pos h2]
        · rw [if_neg h2, if_neg h2, ih]

/-- Helper: the latest record for `dev` after appending one record. -/
theorem latestRec_append (dev : Nat) (w : WorkerRec) :
    ∀ l, latestRec dev (l ++ [w]) =
      if w.devId = dev then some w else latestRec dev l := by
  intro l
  induction l with
  | nil =>
      by_cases hd : w.devId = dev <;> simp [latestRec, hd]
  | cons v rest ih =>
      show (match latestRec dev (rest ++ [w]) with
            | some u => some u
            | none => if v.devId = dev then some v else none) = _
      rw [ih]
      by_cases hd : w.devId = dev
      · simp [hd]
      · simp only [if_neg hd]
        rfl

/-- Helper: no record for `dev` iff no logged worker has that device. -/
theorem latestRec_eq_none (dev : Nat) :
    ∀ l, latestRec dev l = none ↔ ∀ v ∈ l, v.devId ≠ dev := by
  intro l
  induction l with
  | nil => simp [latestRec]
  | cons v rest ih =>
      constructor
      · intro h
        have h2 : (match latestRec dev rest with
            | some u => some u
            | none => if v.devId = dev then some v else none) = none := h
        cases hr : latestRec dev rest with
        | some u => rw [hr] at h2; cases h2
        | none =>
            rw [hr] at h2
            intro x hx
            rcases List.mem_cons.mp hx with rfl | hx2
            · intro hd
              rw [if_pos hd] at h2
              cases h2
            · exact (ih.mp hr) x hx2
      · intro h
        show (match latestRec dev rest with
              | some u => some u
              | none => if v.devId = dev then some v else none) = none
        rw [ih.mpr fun x hx => h x (List.mem_cons_of_mem v hx)]
        rw [if_neg (h v (List.mem_cons_self v rest))]

/-- Helper: the latest record for `dev` splits the log into the records
before it and a suffix containing no record for `dev`. -/
theorem latestRec_split (dev : Nat) :
    ∀ l u, latestRec dev l = some u →
      u.devId = dev ∧ ∃ p s, l = p ++ u :: s ∧ ∀ v ∈ s, v.devId ≠ dev := by
  intro l
  induction l with
  | nil => intro u h; cases h
  | cons v rest ih =>
      intro u h
      have h2 : (match latestRec dev rest with
          | some u2 => some u2
          | none => if v.devId = dev then some v else none) = some u := h
      cases hr : latestRec dev rest with
      | some u2 =>
          rw [hr] at h2
          cases h2
          obtain ⟨hdev, p, s, hps, hs⟩ := ih u hr
          exact ⟨hdev, v :: p, s, by rw [hps]; rfl, hs⟩
      | none =>
          rw [hr] at h2
          by_cases hd : v.devId = dev
          · rw [if_pos hd] at h2
            cases h2
            exact ⟨hd, [], rest, rfl, (latestRec_eq_none dev rest).mp hr⟩
          · rw [if_neg hd] at h2
            cases h2

/-- Helper: decomposing a one-element extension of a list around a chosen
element: the element is either the appended one or inside the old list. -/
theorem snoc_decomp (l : List WorkerRec) (x : WorkerRec)
    (p : List WorkerRec) (w : WorkerRec) (s : List WorkerRec)
    (h : p ++ w :: s = l ++ [x]) :
    (p = l ∧ w = x ∧ s = []) ∨
      ∃ s2, s = s2 ++ [x] ∧ l = p ++ w :: s2 := by
  rcases List.eq_nil_or_concat s with rfl | ⟨s2, y, rfl⟩
  · left
    have h2 : p ++ [w] = l ++ [x] := h
    obtain ⟨h3, h4⟩ := List.append_inj' h2 rfl
    exact ⟨h3, List.singleton_injective h4, rfl⟩
  · right
    have h2 : (p ++ w :: s2) ++ [y] = l ++ [x] := by
      rw [← h]
      simp
    obtain ⟨h3, h4⟩ := List.append_inj' h2 rfl
    have hy : y = x := List.singleton_injective h4
    exact ⟨s2, by simp [List.concat_eq_append, hy], h3.symm⟩

/-- Run invariant of the Supervisor loop: the `children` dict stores
exactly the wid of the most recent logged spawn per device; every logged
spawn happened at a tick within the bound; and a logged worker carries
`start_from_middle` exactly when no earlier spawn existed for its device.
-/
structure SupInvB (e : SupEnv) (bound : Nat) (st : SupState) : Prop where
  child_latest : ∀ dev,
    childFor dev st.children = (latestRec dev st.log).map WorkerRec.wid
  ticks_le : ∀ w ∈ st.log, w.spawnTick ≤ bound
  flags : ∀ p w s, st.log = p ++ w :: s →
    (w.firstScan = true ↔ ∀ v ∈ p, v.devId ≠ w.devId)

/-- Helper: the invariant holds in the initial state. -/
theorem supInvB_init (e : SupEnv) (bound : Nat) : SupInvB e bound initSup := by
  refine ⟨fun dev => rfl, ?_, ?_⟩
  · intro w hw
    cases hw
  · intro p w s hps
    cases p <;> cases hps

/-- Helper: the invariant is monotone in the tick bound. -/
theorem supInvB_mono (e : SupEnv) (b b2 : Nat) (hb : b ≤ b2) (st : SupState)
    (h : SupInvB e b st) : SupInvB e b2 st :=
  ⟨h.child_latest, fun w hw => le_trans (h.ticks_le w hw) hb, h.flags⟩

/-- Helper: spawning preserves the invariant, provided the
`start_from_middle` flag is set exactly when the device has no dict entry.
-/
theorem supInvB_spawn (e : SupEnv) (t : Nat) (st : SupState)
    (hinv : SupInvB e t st) (dev : Nat) (first : Bool)
    (hfirst : first = (childFor dev st.children).isNone) :
    SupInvB e t (spawn st dev first t) := by
  obtain ⟨hcl, htl, hfl⟩ := hinv
  refine ⟨?_, ?_, ?_⟩
  · intro d2
    show childFor d2 (setChild dev st.nextWid st.children) =
      (latestRec d2 (st.log ++ [⟨dev, first, t, st.nextWid⟩])).map WorkerRec.wid
    rw [latestRec_append]
    by_cases hd : d2 = dev
    · subst hd
      rw [childFor_setChild_same, if_pos rfl]
      rfl
    · rw [childFor_setChild_other dev st.nextWid d2 hd,
        if_neg fun h => hd (by exact h.symm)]
      exact hcl d2
  · intro w hw
    rcases List.mem_append.mp hw with hw1 | hw2
    · exact htl w hw1
    · rcases List.mem_singleton.mp hw2 with rfl
      exact le_refl t
  · intro p w s hps
    rcases snoc_decomp st.log ⟨dev, first, t, st.nextWid⟩ p w s hps.symm with
      ⟨rfl, rfl, rfl⟩ | ⟨s2, rfl, hold⟩
    · show first = true ↔ ∀ v ∈ st.log, v.devId ≠ dev
      rw [hfirst]
      cases hc : childFor dev st.children with
      | none =>
          simp only [Option.isNone_none]
          have hnone : latestRec dev st.log = none := by
            have h2 := hcl dev
            rw [hc] at h2
            cases hl : latestRec dev st.log with
            | none => rfl
            | some u => rw [hl] at h2; cases h2
          simp only [true_iff]
          exact (latestRec_eq_none dev st.log).mp hnone
      | some w0 =>
          simp only [Option.isNone_some]
          have h2 := hcl dev
          rw [hc] at h2
          cases hl : latestRec dev st.log with
          | none => rw [hl] at h2; cases h2
          | some u =>
              obtain ⟨hdev, p2, s2, hps2, -⟩ := latestRec_split dev st.log u hl
              constructor
              · intro hfalse
                cases hfalse
              · intro hall
                exfalso
                have hmemu : u ∈ st.log := by
                  rw [hps2]
                  exact List.mem_append_right p2 (List.mem_cons_self u s2)
                exact hall u hmemu hdev
    · exact hfl p w s2 hold

/-- Helper: unfolding the restart loop at a target with a live child. -/
theorem startScans_cons_alive (e : SupEnv) (t dev : Nat) (rest : List Nat)
    (st : SupState) (w : Nat) (hc : childFor dev st.children = some w)
    (ha : e.aliveAt w t = true) :
    startScans e t (dev :: rest) st = startScans e t rest st := by
  show (match childFor dev st.children with
        | some w2 =>
            if e.aliveAt w2 t then startScans e t rest st
            else startScans e t rest (spawn st dev false t)
        | none => startScans e t rest (spawn st dev true t)) = _
  rw [hc]
  show (if e.aliveAt w t = true then startScans e t rest st
        else startScans e t rest (spawn st dev false t)) = _
  rw [if_pos ha]

/-- Helper: unfolding the restart loop at a target whose child exited. -/
theorem startScans_cons_dead (e : SupEnv) (t dev : Nat) (rest : List Nat)
    (st : SupState) (w : Nat) (hc : childFor dev st.children = some w)
    (ha : e.aliveAt w t = false) :
    startScans e t (dev :: rest) st =
      startScans e t rest (spawn st dev false t) := by
  show (match childFor dev st.children with
        | some w2 =>
            if e.aliveAt w2 t then startScans e t rest st
            else startScans e t rest (spawn st dev false t)
        | none => startScans e t rest (spawn st dev true t)) = _
  rw [hc]
  show (if e.aliveAt w t = true then startScans e t rest st
        else startScans e t rest (spawn st dev false t)) = _
  rw [if_neg (by rw [ha]; exact Bool.false_ne_true)]

/-- Helper: unfolding the restart loop at a never-seen target. -/
theorem startScans_cons_new (e : SupEnv) (t dev : Nat) (rest : List Nat)
    (st : SupState) (hc : childFor dev st.children = none) :
    startScans e t (dev :: rest) st =
      startScans e t rest (spawn st dev true t) := by
  show (match childFor dev st.children with
        | some w2 =>
            if e.aliveAt w2 t then startScans e t rest st
            else startScans e t rest (spawn st dev false t)
        | none => startScans e t rest (spawn st dev true t)) = _
  rw [hc]

/-- Helper: the restart loop preserves the invariant. -/
theorem supInvB_startScans (e : SupEnv) (t : Nat) :
    ∀ (l : List Nat) (st : SupState), SupInvB e t st →
      SupInvB e t (startScans e t l st) := by
  intro l
  induction l with
  | nil => intro st h; exact h
  | cons dev rest ih =>
      intro st h
      cases hc : childFor dev st.children with
      | some w =>
          cases ha : e.aliveAt w t with
          | true =>
              rw [startScans_cons_alive e t dev rest st w hc ha]
              exact ih st h
          | false =>
              rw [startScans_cons_dead e t dev rest st w hc ha]
              exact ih _ (supInvB_spawn e t st h dev false (by rw [hc]; rfl))
      | none =>
          rw [startScans_cons_new e t dev rest st hc]
          exact ih _ (supInvB_spawn e t st h dev true (by rw [hc]; rfl))

/-- Helper: unfolding one Supervisor tick of the run. -/
theorem runState_succ (e : SupEnv) (T : Nat) (st0 : SupState)
    (hprev : runState e T = some st0) :
    runState e (T + 1) =
      match supTick e T st0 with
      | .next st2 => some st2
      | .halted _ => none := by
  show (match runState e T with
        | some st1 =>
            match supTick e T st1 with
            | .next st2 => some st2
            | .halted _ => none
        | none => none) = _
  rw [hprev]

/-- Helper: a continuing tick is a fatal-free restart sweep. -/
theorem supTick_next (e : SupEnv) (t : Nat) (st st2 : SupState)
    (htick : supTick e t st = .next st2) :
    anyFatal e t st = false ∧ st2 = startScans e t (e.targets t) st := by
  unfold supTick at htick
  by_cases hf : anyFatal e t st
  · rw [if_pos hf] at htick
    cases htick
  · rw [if_neg hf] at htick
    cases htick
    exact ⟨Bool.not_eq_true _ ▸ Bool.of_not_eq_true hf, rfl⟩

/-- Helper: the invariant holds along every run of the Supervisor. -/
theorem runState_invB (e : SupEnv) :
    ∀ (T : Nat) (st : SupState), runState e T = some st → SupInvB e T st := by
  intro T
  induction T with
  | zero =>
      intro st h
      cases h
      exact supInvB_init e 0
  | succ T ih =>
      intro st h
      cases hprev : runState e T with
      | none =>
          rw [runState] at h
          rw [hprev] at h
          cases h
      | some st0 =>
          rw [runState_succ e T st0 hprev] at h
          cases htick : supTick e T st0 with
          | halted ks => rw [htick] at h; cases h
          | next st2 =>
              rw [htick] at h
              injection h with h2
              subst h2
              obtain ⟨-, hst2⟩ := supTick_next e T st0 st2 htick
              rw [hst2]
              exact supInvB_mono e T (T + 1) (Nat.le_succ T) _
                (supInvB_startScans e T (e.targets T) st0 (ih st0 hprev))

/-- Processes do not resurrect: once a worker has an exit code it keeps
having one at every later tick. -/
def ExitMono (e : SupEnv) : Prop :=
  ∀ w t t2, t ≤ t2 → (e.exitAt w t).isSome = true →
    (e.exitAt w t2).isSome = true

/-- Death invariant of the spawn log: a logged worker that is followed by a
later logged worker for the same device had already exited at that later
worker's spawn tick. -/
def DeadInv (e : SupEnv) (st : SupState) : Prop :=
  ∀ p w s, st.log = p ++ w :: s → ∀ v ∈ p, v.devId = w.devId →
    (e.exitAt v.wid w.spawnTick).isSome = true

/-- Helper: the death invariant holds initially. -/
theorem deadInv_init (e : SupEnv) : DeadInv e initSup := by
  intro p w s hps
  cases p <;> cases hps

/-- Helper: when the dict child for `dev` has exited at tick `t`, every
logged worker for `dev` has exited at tick `t`. -/
theorem dead_all_of_latest_dead (e : SupEnv) (hmono : ExitMono e) (t : Nat)
    (st : SupState) (hinvB : SupInvB e t st) (hdead : DeadInv e st)
    (dev w : Nat) (hc : childFor dev st.children = some w)
    (hdw : (e.exitAt w t).isSome = true) :
    ∀ v ∈ st.log, v.devId = dev → (e.exitAt v.wid t).isSome = true := by
  intro v hv hvdev
  have hcl := hinvB.child_latest dev
  rw [hc] at hcl
  cases hu : latestRec dev st.log with
  | none => rw [hu] at hcl; cases hcl
  | some u =>
      rw [hu] at hcl
      have hw : w = u.wid := by simpa using hcl
      obtain ⟨hudev, p, s, hps, hs⟩ := latestRec_split dev st.log u hu
      rw [hps] at hv
      rcases List.mem_append.mp hv with hvp | hvs
      · have h1 := hdead p u s hps v hvp (by rw [hvdev, hudev])
        have h2 : u.spawnTick ≤ t := by
          apply hinvB.ticks_le u
          rw [hps]
          exact List.mem_append_right p (List.mem_cons_self u s)
        exact hmono v.wid u.spawnTick t h2 h1
      · rcases List.mem_cons.mp hvs with rfl | hvs2
        · rw [← hw]
          exact hdw
        · exact absurd hvdev (hs v hvs2)

/-- Helper: spawning preserves the death invariant when every logged
worker for the device has exited at the spawn tick. -/
theorem deadInv_spawn (e : SupEnv) (t : Nat) (st : SupState)
    (hdead : DeadInv e st) (dev : Nat) (first : Bool)
    (hprev : ∀ v ∈ st.log, v.devId = dev →
      (e.exitAt v.wid t).isSome = true) :
    DeadInv e (spawn st dev first t) := by
  intro p w s hps v hvp hvdev
  rcases snoc_decomp st.log ⟨dev, first, t, st.nextWid⟩ p w s hps.symm with
    ⟨rfl, rfl, rfl⟩ | ⟨s2, rfl, hold⟩
  · exact hprev v hvp hvdev
  · exact hdead p w s2 hold v hvp hvdev

/-- Helper: the restart loop preserves the death invariant. -/
theorem deadInv_startScans (e : SupEnv) (hmono : ExitMono e) (t : Nat) :
    ∀ (l : List Nat) (st : SupState), SupInvB e t st → DeadInv e st →
      DeadInv e (startScans e t l st) := by
  intro l
  induction l with
  | nil => intro st hB hD; exact hD
  | cons dev rest ih =>
      intro st hB hD
      cases hc : childFor dev st.children with
      | some w =>
          cases ha : e.aliveAt w t with
          | true =>
              rw [startScans_cons_alive e t dev rest st w hc ha]
              exact ih st hB hD
          | false =>
              rw [startScans_cons_dead e t dev rest st w hc ha]
              have hdw : (e.exitAt w t).isSome = true := by
                unfold SupEnv.aliveAt at ha
                cases hx : e.exitAt w t with
                | none => rw [hx] at ha; simp at ha
                | some c => rfl
              exact ih _ (supInvB_spawn e t st hB dev false (by rw [hc]; rfl))
                (deadInv_spawn e t st hD dev false
                  (dead_all_of_latest_dead e hmono t st hB hD dev w hc hdw))
      | none =>
          rw [startScans_cons_new e t dev rest st hc]
          have hnone : ∀ v ∈ st.log, v.devId = dev →
              (e.exitAt v.wid t).isSome = true := by
            intro v hv hvdev
            exfalso
            have hcl := hB.child_latest dev
            rw [hc] at hcl
            cases hl : latestRec dev st.log with
            | some u => rw [hl] at hcl; cases hcl
            | none => exact (latestRec_eq_none dev st.log).mp hl v hv hvdev
          exact ih _ (supInvB_spawn e t st hB dev true (by rw [hc]; rfl))
            (deadInv_spawn e t st hD dev true hnone)

/-- Helper: the death invariant holds along every run. -/
theorem runState_dead (e : SupEnv) (hmono : ExitMono e) :
    ∀ (T : Nat) (st : SupState), runState e T = some st → DeadInv e st := by
  intro T
  induction T with
  | zero => intro st h; cases h; exact deadInv_init e
  | succ T ih =>
      intro st h
      cases hprev : runState e T with
      | none =>
          rw [runState] at h
          rw [hprev] at h
          cases h
      | some st0 =>
          rw [runState_succ e T st0 hprev] at h
          cases htick : supTick e T st0 with
          | halted ks => rw [htick] at h; cases h
          | next st2 =>
              rw [htick] at h
              injection h with h2
              subst h2
              obtain ⟨-, hst2⟩ := supTick_next e T st0 st2 htick
              rw [hst2]
              exact deadInv_startScans e hmono T (e.targets T) st0
                (runState_invB e T st0 hprev) (ih st0 hprev)

/-- C1 (evidence of the code bug): in an environment with two devices
where worker 0 (device 0) exits with code 1 at tick 1 while worker 1
(device 1) is still running, the Supervisor's next tick halts the daemon
and kills exactly the other still-running worker (wid 1) — but `main`
returns `None` (the bare `return` at source line 181), so
`sys.exit(main())` exits the daemon process with status 0, not the
non-zero status the claim requires. -/
theorem patrol_C1 :
    runState envC1 1 = some stC1 ∧
    supTick envC1 1 stC1 = .halted [1] ∧
    daemonFatalExitStatus = 0 := ⟨rfl, rfl, rfl⟩

/-- C8: along every Supervisor run, a spawned worker carries
`start_from_middle` (and hence the aligned-midpoint start offset) exactly
when no earlier worker was ever started for its device identifier in this
daemon lifetime; every replacement worker (one with an earlier same-device
spawn) is started with offset 0. -/
theorem patrol_C8 (e : SupEnv) (T : Nat) (st : SupState)
    (h : runState e T = some st) (pfx : List WorkerRec) (w : WorkerRec)
    (sfx : List WorkerRec) (hlog : st.log = pfx ++ w :: sfx) :
    (w.firstScan = true ↔ ∀ v ∈ pfx, v.devId ≠ w.devId) ∧
    ((∃ v ∈ pfx, v.devId = w.devId) →
      ∀ size r, workerStartOffset size r w = 0) := by
  have hf := (runState_invB e T st h).flags pfx w sfx hlog
  refine ⟨hf, ?_⟩
  rintro ⟨v, hv, hdev⟩ size r
  have hfalse : w.firstScan = false := by
    cases hfs : w.firstScan with
    | false => rfl
    | true => exact absurd hdev (hf.mp hfs v hv)
  unfold workerStartOffset
  rw [hfalse]
  rfl

/-- C8 witness: in `envC8`, after worker 0 finishes its first (midpoint)
pass of device 0, the replacement worker spawned at tick 1 starts at
offset 0. -/
theorem patrol_C8_witness : workerStartOffset 256 64 recC8b = 0 := by
  have h := patrol_C8 envC8 2 stC8 (by decide) [recC8a] recC8b [] rfl
  exact h.2 ⟨recC8a, by decide, rfl⟩ 256 64

/-- C9: along every Supervisor run (in any environment where exited
processes stay exited), if the spawn log contains a worker `v` for some
device and a later worker `w` for the same device, then `v` is not alive at
`w`'s spawn tick nor at any later tick — so a new worker is started only
once the previous worker for that identifier is no longer alive, and at
every point at most one worker per device identifier is alive (only the
most recently spawned one can be). -/
theorem patrol_C9 (e : SupEnv) (hmono : ExitMono e) (T : Nat)
    (st : SupState) (h : runState e T = some st) (pfx : List WorkerRec)
    (w : WorkerRec) (sfx : List WorkerRec) (hlog : st.log = pfx ++ w :: sfx)
    (v : WorkerRec) (hv : v ∈ pfx) (hdev : v.devId = w.devId) :
    (∀ t, w.spawnTick ≤ t → e.aliveAt v.wid t = false) ∧
    e.aliveAt v.wid T = false := by
  have hd := runState_dead e hmono T st h pfx w sfx hlog v hv hdev
  have hall : ∀ t, w.spawnTick ≤ t → e.aliveAt v.wid t = false := by
    intro t ht
    have hsome := hmono v.wid w.spawnTick t ht hd
    unfold SupEnv.aliveAt
    cases hx : e.exitAt v.wid t with
    | none => rw [hx] at hsome; cases hsome
    | some c => rfl
  refine ⟨hall, hall T ?_⟩
  apply (runState_invB e T st h).ticks_le w
  rw [hlog]
  exact List.mem_append_right pfx (List.mem_cons_self w sfx)

/-- C9 witness: in `envC8` (one device, worker 0 finishes at tick 1,
replacement worker 1 spawned at tick 1), worker 0 is not alive at tick 5.
-/
theorem patrol_C9_witness : envC8.aliveAt 0 5 = false := by
  have hmono : ExitMono envC8 := by
    intro w t t2 hle hsome
    show (if w = 0 ∧ 1 ≤ t2 then some (0 : Int) else none).isSome = true
    have ht : w = 0 ∧ 1 ≤ t := by
      by_contra hc
      have hx : envC8.exitAt w t = none := if_neg hc
      rw [hx] at hsome
      cases hsome
    rw [if_pos ⟨ht.1, le_trans ht.2 hle⟩]
    rfl
  have h := patrol_C9 envC8 hmono 2 stC8 (by decide) [recC8a] recC8b []
    rfl recC8a (by decide) rfl
  exact h.1 5 (by decide)

/-- Helper: the restart loop only appends to the spawn log. -/
theorem startScans_log_extend (e : SupEnv) (t : Nat) :
    ∀ (l : List Nat) (st : SupState),
      ∃ tail, (startScans e t l st).log = st.log ++ tail := by
  intro l
  induction l with
  | nil => intro st; exact ⟨[], (List.append_nil _).symm⟩
  | cons dev rest ih =>
      intro st
      cases hc : childFor dev st.children with
      | some w =>
          cases ha : e.aliveAt w t with
          | true =>
              rw [startScans_cons_alive e t dev rest st w hc ha]
              exact ih st
          | false =>
              rw [startScans_cons_dead e t dev rest st w hc ha]
              obtain ⟨tail2, htail2⟩ := ih (spawn st dev false t)
              exact ⟨⟨dev, false, t, st.nextWid⟩ :: tail2,
                by rw [htail2]; simp [spawn]⟩
      | none =>
          rw [startScans_cons_new e t dev rest st hc]
          obtain ⟨tail2, htail2⟩ := ih (spawn st dev true t)
          exact ⟨⟨dev, true, t, st.nextWid⟩ :: tail2,
            by rw [htail2]; simp [spawn]⟩

/-- Helper: a target in the sweep list whose dict child has exited gets a
replacement worker with `start_from_middle` unset. -/
theorem startScans_spawns_replacement (e : SupEnv) (t : Nat) :
    ∀ (l : List Nat) (st : SupState) (dev w : Nat), dev ∈ l →
      childFor dev st.children = some w → e.aliveAt w t = false →
      ∃ tail, (startScans e t l st).log = st.log ++ tail ∧
        ∃ rec ∈ tail, rec.devId = dev ∧ rec.firstScan = false := by
  intro l
  induction l with
  | nil =>
      intro st dev w hmem
      cases hmem
  | cons d rest ih =>
      intro st dev w hmem hc ha
      by_cases hd : d = dev
      · subst hd
        rw [startScans_cons_dead e t d rest st w hc ha]
        obtain ⟨tail2, htail2⟩ := startScans_log_extend e t rest
          (spawn st d false t)
        refine ⟨⟨d, false, t, st.nextWid⟩ :: tail2, ?_, ?_⟩
        · rw [htail2]; simp [spawn]
        · exact ⟨⟨d, false, t, st.nextWid⟩,
            List.mem_cons_self _ _, rfl, rfl⟩
      · have hmem2 : dev ∈ rest := by
          rcases List.mem_cons.mp hmem with rfl | h2
          · exact absurd rfl hd
          · exact h2
        cases hcd : childFor d st.children with
        | some w2 =>
            cases had : e.aliveAt w2 t with
            | true =>
                rw [startScans_cons_alive e t d rest st w2 hcd had]
                exact ih st dev w hmem2 hc ha
            | false =>
                rw [startScans_cons_dead e t d rest st w2 hcd had]
                have hc2 : childFor dev (spawn st d false t).children
                    = some w := by
                  show childFor dev (setChild d st.nextWid st.children)
                    = some w
                  rw [childFor_setChild_other d st.nextWid dev
                    fun h2 => hd h2.symm]
                  exact hc
                obtain ⟨tail2, htail2, hrec⟩ :=
                  ih (spawn st d false t) dev w hmem2 hc2 ha
                refine ⟨⟨d, false, t, st.nextWid⟩ :: tail2, ?_, ?_⟩
                · rw [htail2]; simp [spawn]
                · obtain ⟨rec, hrecmem, hrecdev, hrecf⟩ := hrec
                  exact ⟨rec, List.mem_cons_of_mem _ hrecmem, hrecdev, hrecf⟩
        | none =>
            rw [startScans_cons_new e t d rest st hcd]
            have hc2 : childFor dev (spawn st d true t).children
                = some w := by
              show childFor dev (setChild d st.nextWid st.children) = some w
              rw [childFor_setChild_other d st.nextWid dev
                fun h2 => hd h2.symm]
              exact hc
            obtain ⟨tail2, htail2, hrec⟩ :=
              ih (spawn st d true t) dev w hmem2 hc2 ha
            refine ⟨⟨d, true, t, st.nextWid⟩ :: tail2, ?_, ?_⟩
            · rw [htail2]; simp [spawn]
            · obtain ⟨rec, hrecmem, hrecdev, hrecf⟩ := hrec
              exact ⟨rec, List.mem_cons_of_mem _ hrecmem, hrecdev, hrecf⟩

/-- C10: the Supervisor halts the daemon only when some current child's
exit code is exactly 1; a child that terminated with any other status (for
example exit code -9 from a kill signal) does not trigger shutdown — if no
child has exit code 1 and the device is in the resolved target set, the
tick continues and spawns an offset-0 replacement worker for it, exactly as
it would after a completed pass. -/
theorem patrol_C10 (e : SupEnv) (t : Nat) (st : SupState) :
    (∀ ks, supTick e t st = .halted ks →
      ∃ c ∈ st.children, e.exitAt c.2 t = some 1) ∧
    (∀ dev w c, childFor dev st.children = some w →
      e.exitAt w t = some c → c ≠ 1 →
      (∀ x ∈ st.children, e.exitAt x.2 t ≠ some 1) →
      dev ∈ e.targets t →
      ∃ st2 tail, supTick e t st = .next st2 ∧
        st2.log = st.log ++ tail ∧
        ∃ rec ∈ tail, rec.devId = dev ∧ rec.firstScan = false) := by
  constructor
  · intro ks hks
    unfold supTick at hks
    by_cases hf : anyFatal e t st
    · unfold anyFatal at hf
      obtain ⟨c, hc, hdec⟩ := List.any_eq_true.mp hf
      exact ⟨c, hc, of_decide_eq_true hdec⟩
    · rw [if_neg hf] at hks
      cases hks
  · intro dev w c hc hxc hc1 hno htgt
    have hf : anyFatal e t st = false := by
      unfold anyFatal
      rw [List.any_eq_false]
      intro x hx
      rw [decide_eq_true_eq]
      exact hno x hx
    have htick : supTick e t st = .next (startScans e t (e.targets t) st) := by
      unfold supTick
      rw [hf]
      rfl
    have ha : e.aliveAt w t = false := by
      unfold SupEnv.aliveAt
      rw [hxc]
      rfl
    obtain ⟨tail, htail, hrec⟩ :=
      startScans_spawns_replacement e t (e.targets t) st dev w htgt hc ha
    exact ⟨startScans e t (e.targets t) st, tail, htick, htail, hrec⟩

/-- C10 witness: worker 0 for device 0 is killed by a signal (exit code
-9) at tick 1; the Supervisor does not halt and spawns an offset-0
replacement worker for device 0. -/
theorem patrol_C10_witness :
    ∃ st2 tail, supTick envC10 1 stC10 = .next st2 ∧
      st2.log = stC10.log ++ tail ∧
      ∃ rec ∈ tail, rec.devId = 0 ∧ rec.firstScan = false := by
  refine (patrol_C10 envC10 1 stC10).2 0 0 (-9) rfl rfl (by decide)
    ?_ (by decide)
  intro x hx
  fin_cases hx
  decide

end PatrolScan
